import Mathlib

/-!
Shallow embedding of `src/script.js`, a client-side password manager:
IndexedDB persistence (key store + password store), AES-GCM encryption of
stored passwords via WebCrypto, a character-class password generator, and
the form handlers that orchestrate them.

Modelling conventions:
 - Bytes are `Nat` (a `Uint8Array` cell always holds a value `< 256`; where
   a random byte enters the model as an arbitrary `Nat` it is reduced
   `% 256`, exactly as storing it into a `Uint8Array` would).
 - The IndexedDB database is a record `DB` holding the single key record
   (store `encryptionKeyStore`, fixed id 1), the password records (store
   `passwords`, auto-increment primary key starting at 1) and the
   auto-increment counter.  `getAll` on an IndexedDB object store returns
   records in ascending key order; `getAllPasswords` models that by
   scanning ids `0, 1, 2, ...` in order.
 - Asynchronous callback code is modelled by explicit state passing; the
   random values an operation draws (key bytes, IVs, random bytes) are
   passed in as parameters.
 - `crypto.subtle` AES-GCM is a platform primitive, not repository code;
   it is modelled from the spec (§4.3) as an abstract `AEAD` scheme, with
   the contracts the spec states (round-trip, tamper detection) as
   explicit predicates.  `xorAEAD` is a concrete executable instance
   satisfying those contracts, used to witness the theorems.
-/

/-- A JS value held in the `rawKey` field of the key record: either an
`ArrayBuffer` of bytes or a nullish value (`null`/`undefined`). -/
inductive JSVal where
  | nullish : JSVal
  | buf (bytes : List Nat) : JSVal
deriving DecidableEq

/-- JS truthiness of such a value: `null`/`undefined` are falsy; every
`ArrayBuffer` object is truthy, including an empty one. -/
def JSVal.truthy : JSVal → Bool
  | .nullish => false
  | .buf _ => true

/-- A record of the `encryptionKeyStore` object store (`{ id: 1, rawKey }`;
the id is the fixed singleton 1 and is left implicit). -/
structure KeyRecord where
  rawKey : JSVal
deriving DecidableEq

/-- A record of the `passwords` object store. -/
structure PasswordRecord where
  id : Nat
  website : String
  username : String
  iv : List Nat
  ciphertext : List Nat
deriving DecidableEq

/-- The state of the IndexedDB database `SecurePasswordManagerDB`:
the singleton key record (if any), the password records in insertion
order, and the auto-increment counter of the `passwords` store. -/
structure DB where
  keyRecord : Option KeyRecord
  passwords : List PasswordRecord
  nextId : Nat
deriving DecidableEq

/-- `openDatabase` (lines 25-55): on first open, `onupgradeneeded` creates
both object stores empty; IndexedDB auto-increment keys start at 1. -/
def openDatabase : DB :=
  { keyRecord := none, passwords := [], nextId := 1 }

/-- `getMasterKeyFromDB` (lines 60-77): reads the record with id 1 from
`encryptionKeyStore` and resolves `getRequest.result?.rawKey || null`:
if the record is absent, or its `rawKey` is nullish (falsy), the result is
`null`; otherwise the stored buffer (truthy even when empty) is returned. -/
def getMasterKeyFromDB (db : DB) : Option (List Nat) :=
  match db.keyRecord with
  | none => none
  | some r =>
    match r.rawKey with
    | .nullish => none
    | .buf b => some b

/-- `saveMasterKeyToDB` (lines 82-97): `store.put({ id: 1, rawKey })`
writes the key record under the fixed id 1, overwriting any existing one. -/
def saveMasterKeyToDB (rawKey : List Nat) (db : DB) : DB :=
  { db with keyRecord := some { rawKey := JSVal.buf rawKey } }

/-- `saveEncryptedPasswordToDB` (lines 103-119): `store.add` inserts the
record, letting auto-increment assign the next id. -/
def saveEncryptedPasswordToDB (website username : String) (iv ciphertext : List Nat)
    (db : DB) : DB :=
  { db with
    passwords := db.passwords ++
      [{ id := db.nextId, website := website, username := username,
         iv := iv, ciphertext := ciphertext }],
    nextId := db.nextId + 1 }

/-- `getAllPasswords` (lines 124-139): `store.getAll()` returns the records
of the `passwords` store in ascending key order; modelled by scanning the
possible ids in ascending order. -/
def getAllPasswords (db : DB) : List PasswordRecord :=
  (List.range db.nextId).filterMap (fun i => db.passwords.find? (fun r => r.id == i))

/-- `deletePasswordById` (lines 144-159): `store.delete(id)` removes the
record with that key, a no-op when absent. -/
def deletePasswordById (id : Nat) (db : DB) : DB :=
  { db with passwords := db.passwords.filter (fun r => r.id != id) }

/-- Database states reachable through the repository's own storage
operations, starting from a freshly created database. -/
inductive Reachable : DB → Prop where
  | start : Reachable openDatabase
  | add (w u : String) (iv ct : List Nat) {db : DB} :
      Reachable db → Reachable (saveEncryptedPasswordToDB w u iv ct db)
  | del (id : Nat) {db : DB} :
      Reachable db → Reachable (deletePasswordById id db)
  | key (k : List Nat) {db : DB} :
      Reachable db → Reachable (saveMasterKeyToDB k db)

/-- Modelled from the spec: `crypto.subtle` AES-GCM (§4.3), a platform
primitive not present in the repository source, abstracted as an AEAD
scheme: `enc key iv msg` is the combined ciphertext-plus-tag, `dec` returns
`none` on authentication failure. -/
structure AEAD where
  enc : List Nat → List Nat → List Nat → List Nat
  dec : List Nat → List Nat → List Nat → Option (List Nat)

/-- The AEAD round-trip contract of §4.3: decrypting what was encrypted
under the same key and nonce recovers the message. -/
def AEAD.Correct (A : AEAD) : Prop :=
  ∀ key iv msg, A.dec key iv (A.enc key iv msg) = some msg

/-- Flip bit `j` of byte `i` of a byte sequence (no-op when `i` is out of
range). -/
def flipBit (bs : List Nat) (i j : Nat) : List Nat :=
  bs.set i ((bs.getD i 0) ^^^ (2 ^ j))

/-- The AEAD tamper-detection contract of §4.3/§8 on the ciphertext:
flipping any single bit of the ciphertext makes decryption fail. -/
def AEAD.TamperCt (A : AEAD) : Prop :=
  ∀ key iv msg i j, j < 8 → i < (A.enc key iv msg).length →
    A.dec key iv (flipBit (A.enc key iv msg) i j) = none

/-- The AEAD tamper-detection contract of §4.3/§8 on the nonce:
flipping any single bit of the nonce makes decryption fail. -/
def AEAD.TamperIv (A : AEAD) : Prop :=
  ∀ key iv msg i j, j < 8 → i < iv.length →
    A.dec key (flipBit iv i j) (A.enc key iv msg) = none

/-- XOR-fold of a byte sequence. -/
def xorSum (l : List Nat) : Nat := l.foldr (fun a b => a ^^^ b) 0

/-- Authentication tag of the concrete witness scheme: the XOR-fold of
key, nonce and message bytes. -/
def tagOf (key iv msg : List Nat) : Nat := xorSum key ^^^ xorSum iv ^^^ xorSum msg

/-- A concrete executable AEAD instance (message followed by a one-byte
XOR tag over key, nonce and message), used to witness the AEAD-contract
hypotheses of the theorems below. -/
def xorAEAD : AEAD where
  enc := fun key iv msg => msg ++ [tagOf key iv msg]
  dec := fun key iv ct =>
    if ct.isEmpty then none
    else if ct.getLastD 0 = tagOf key iv ct.dropLast then some ct.dropLast
    else none

/-- Modelled from the spec: `TextEncoder` (§4.3 encrypts "the UTF-8
encoding of the plaintext"); standard UTF-8 encoding of one character. -/
def utf8EncodeChar (c : Char) : List Nat :=
  if c.toNat < 0x80 then [c.toNat]
  else if c.toNat < 0x800 then [0xC0 + c.toNat / 0x40, 0x80 + c.toNat % 0x40]
  else if c.toNat < 0x10000 then
    [0xE0 + c.toNat / 0x1000, 0x80 + c.toNat / 0x40 % 0x40, 0x80 + c.toNat % 0x40]
  else
    [0xF0 + c.toNat / 0x40000, 0x80 + c.toNat / 0x1000 % 0x40,
     0x80 + c.toNat / 0x40 % 0x40, 0x80 + c.toNat % 0x40]

/-- UTF-8 encoding of a string as a byte sequence. -/
def utf8Encode (s : String) : List Nat := s.data.flatMap utf8EncodeChar

/-- Whether a byte is a UTF-8 continuation byte (`10xxxxxx`). -/
def contByte (b : Nat) : Bool := 0x80 ≤ b && b < 0xC0

/-- Decode one UTF-8-encoded character from the front of a byte sequence,
returning it with the remaining bytes; `none` on malformed input
(stray continuation byte, overlong encoding, out-of-range lead byte). -/
def utf8DecodeOne (l : List Nat) : Option (Char × List Nat) :=
  match l with
  | [] => none
  | b :: rest =>
    if b < 0x80 then some (Char.ofNat b, rest)
    else if b < 0xC2 then none
    else if b < 0xE0 then
      match rest with
      | b1 :: rest1 =>
        if contByte b1 then
          some (Char.ofNat ((b - 0xC0) * 0x40 + (b1 - 0x80)), rest1)
        else none
      | [] => none
    else if b < 0xF0 then
      match rest with
      | b1 :: b2 :: rest2 =>
        if contByte b1 && contByte b2 then
          if (b - 0xE0) * 0x1000 + (b1 - 0x80) * 0x40 + (b2 - 0x80) < 0x800 then none
          else some (Char.ofNat ((b - 0xE0) * 0x1000 + (b1 - 0x80) * 0x40 + (b2 - 0x80)), rest2)
        else none
      | _ => none
    else if b < 0xF5 then
      match rest with
      | b1 :: b2 :: b3 :: rest3 =>
        if contByte b1 && contByte b2 && contByte b3 then
          if (b - 0xF0) * 0x40000 + (b1 - 0x80) * 0x1000 + (b2 - 0x80) * 0x40 + (b3 - 0x80)
              < 0x10000 then none
          else some (Char.ofNat ((b - 0xF0) * 0x40000 + (b1 - 0x80) * 0x1000 +
            (b2 - 0x80) * 0x40 + (b3 - 0x80)), rest3)
        else none
      | _ => none
    else none

/-- Decode characters one at a time; the fuel bounds the number of
characters, and a byte sequence of length `n` holds at most `n` of them. -/
def utf8DecodeLoop : Nat → List Nat → Option (List Char)
  | _, [] => some []
  | 0, _ :: _ => none
  | fuel + 1, b :: rest =>
    match utf8DecodeOne (b :: rest) with
    | none => none
    | some (c, rest2) => (utf8DecodeLoop fuel rest2).map (fun cs => c :: cs)

/-- Modelled from the spec: `TextDecoder`; standard UTF-8 decoding of a
byte sequence, `none` on malformed input. -/
def utf8Decode (bs : List Nat) : Option (List Char) :=
  utf8DecodeLoop bs.length bs

/-- UTF-8 decoding to a string. -/
def textDecoder (bs : List Nat) : Option String :=
  (utf8Decode bs).map (fun cs => String.mk cs)

/-- The `{ iv, ciphertext }` pair returned by `encryptPassword` and stored
per password record. -/
structure EncryptedData where
  iv : List Nat
  ciphertext : List Nat
deriving DecidableEq

/-- `encryptPassword` (lines 199-218): AES-GCM-encrypts the UTF-8 encoding
of the plaintext under the cached master key and a fresh 12-byte IV (here a
parameter, since randomness is explicit), returning `{ iv, ciphertext }`. -/
def encryptPassword (A : AEAD) (rawMasterKey : List Nat) (iv : List Nat)
    (plainTextPassword : String) : EncryptedData :=
  { iv := iv,
    ciphertext := A.enc rawMasterKey iv (utf8Encode plainTextPassword) }

/-- `decryptPassword` (lines 225-241): AES-GCM-decrypts `{ iv, ciphertext }`
under the cached master key and decodes the plaintext bytes; `none` models
the rejected promise on authentication failure. -/
def decryptPassword (A : AEAD) (rawMasterKey : List Nat)
    (encryptedData : EncryptedData) : Option String :=
  (A.dec rawMasterKey encryptedData.iv encryptedData.ciphertext).bind textDecoder

/-- The `options` argument of `generateSecurePassword`; `length` is a JS
number, kept as an integer to cover negative inputs. -/
structure GenOptions where
  length : Int
  useUppercase : Bool
  useLowercase : Bool
  useDigits : Bool
  useSymbols : Bool
deriving DecidableEq

/-- Lines 262-266: the four class alphabets. -/
def uppercaseChars : List Char := "ABCDEFGHIJKLMNOPQRSTUVWXYZ".data

/-- Lowercase alphabet (line 263). -/
def lowercaseChars : List Char := "abcdefghijklmnopqrstuvwxyz".data

/-- Digit alphabet (line 264). -/
def digitChars : List Char := "0123456789".data

/-- Symbol alphabet (line 266). -/
def symbolChars : List Char := "!@#$%^&*()-_=+[]\x7b\x7d|;:,.<>?/".data

/-- Lines 269-273: the character pool, concatenated in the fixed order
uppercase, lowercase, digits, symbols. -/
def charPoolOf (o : GenOptions) : List Char :=
  (if o.useUppercase then uppercaseChars else []) ++
  (if o.useLowercase then lowercaseChars else []) ++
  (if o.useDigits then digitChars else []) ++
  (if o.useSymbols then symbolChars else [])

/-- Failure modes of `generateSecurePassword`: the explicit `throw` when the
pool is empty (line 277), and the `RangeError` that `new Uint8Array(length)`
raises for a negative length (JS `ToIndex`). -/
inductive GenError where
  | noClassSelected : GenError
  | rangeError : GenError
deriving DecidableEq

/-- `generateSecurePassword` (lines 252-293): builds the pool, throws if it
is empty, allocates `length` random bytes (RangeError when `length < 0`;
`rv i % 256` is the byte stored in cell `i` of the `Uint8Array`), and picks
`charPool[randomValues[i] % charPool.length]` for each position. -/
def generateSecurePassword (o : GenOptions) (rv : Nat → Nat) : Except GenError String :=
  let charPool := charPoolOf o
  if charPool.length = 0 then
    .error .noClassSelected
  else if o.length < 0 then
    .error .rangeError
  else
    .ok (String.mk ((List.range o.length.toNat).map
      (fun i => charPool.getD (rv i % 256 % charPool.length) ' ')))

/-- JS whitespace test used by `String.prototype.trim` (the characters that
occur in practice here: space, tab, newline, carriage return). -/
def jsSpace (c : Char) : Bool := c = ' ' || c = '\t' || c = '\n' || c = '\r'

/-- JS `String.prototype.trim`: drop leading and trailing whitespace. -/
def jsTrim (s : String) : String :=
  String.mk (((s.data.dropWhile jsSpace).reverse.dropWhile jsSpace).reverse)

/-- Outcome of the add-password form handler: the early `alert`-and-return
on a missing field, or a successful encrypt-and-store. -/
inductive AddOutcome where
  | validationFailed : AddOutcome
  | saved : AddOutcome
deriving DecidableEq

/-- `handleAddPasswordSubmit` (lines 389-429): trims website and username,
validates all three fields non-empty (the password untrimmed), then
encrypts the password and inserts the record.  The fresh IV of the inner
`encryptPassword` call is the explicit `iv` parameter. -/
def handleAddPasswordSubmit (A : AEAD) (rawMasterKey : List Nat) (iv : List Nat)
    (websiteInput usernameInput passwordInput : String) (db : DB) : AddOutcome × DB :=
  let website := jsTrim websiteInput
  let username := jsTrim usernameInput
  let plainPassword := passwordInput
  if website = "" || username = "" || plainPassword = "" then
    (.validationFailed, db)
  else
    let encrypted := encryptPassword A rawMasterKey iv plainPassword
    (.saved,
      saveEncryptedPasswordToDB website username encrypted.iv encrypted.ciphertext db)

/-- `initApp`, key-initialization part (lines 435-446): load the master key
record; if the lookup reports it absent, generate a fresh key (the
`generatedKey` parameter, since randomness is explicit) and persist it;
the returned first component is the value assigned to `rawMasterKey`. -/
def initApp (generatedKey : List Nat) (db : DB) : List Nat × DB :=
  match getMasterKeyFromDB db with
  | some storedKey => (storedKey, db)
  | none => (generatedKey, saveMasterKeyToDB generatedKey db)

/-! ## Helper lemmas -/

/-- A non-empty class selection yields a non-empty character pool (each of
the four alphabets is non-empty). -/
theorem charPoolOf_length_ne_zero (o : GenOptions)
    (hclass : o.useUppercase = true ∨ o.useLowercase = true ∨
      o.useDigits = true ∨ o.useSymbols = true) :
    (charPoolOf o).length ≠ 0 := by
  have h1 : uppercaseChars.length = 26 := by decide
  have h2 : lowercaseChars.length = 26 := by decide
  have h3 : digitChars.length = 10 := by decide
  have h4 : symbolChars.length = 27 := by decide
  rcases hclass with h | h | h | h <;>
    simp [charPoolOf, h, h1, h2, h3, h4, List.length_append]

/-! ## Claim theorems -/

/-- C2: if a key record holding key bytes is already present in storage,
`initApp` returns exactly those stored bytes and leaves the database
unchanged (no generation, no write to the key collection), and a second
call in sequence yields byte-identical key material. -/
theorem initApp_idempotent (db : DB) (r : KeyRecord) (k g1 g2 : List Nat)
    (hrec : db.keyRecord = some r) (hraw : r.rawKey = JSVal.buf k) :
    initApp g1 db = (k, db) ∧ (initApp g2 (initApp g1 db).2).1 = k := by
  have h : getMasterKeyFromDB db = some k := by
    simp [getMasterKeyFromDB, hrec, hraw]
  refine ⟨by simp [initApp, h], ?_⟩
  simp [initApp, h]

/-- Witness for C2 at a concrete database holding the key `[5, 6]`. -/
theorem initApp_idempotent_witness :
    initApp [9] { keyRecord := some { rawKey := JSVal.buf [5, 6] }, passwords := [], nextId := 1 } =
      ([5, 6], { keyRecord := some { rawKey := JSVal.buf [5, 6] }, passwords := [], nextId := 1 }) ∧
    (initApp [8] (initApp [9] { keyRecord := some { rawKey := JSVal.buf [5, 6] }, passwords := [], nextId := 1 }).2).1 = [5, 6] :=
  initApp_idempotent _ _ [5, 6] [9] [8] rfl rfl

/-- C4: with no character class selected the generator throws the
no-class-selected error, for every requested length (the pool check comes
before the length is ever used). -/
theorem generateSecurePassword_noClass (len : Int) (rv : Nat → Nat) :
    generateSecurePassword ⟨len, false, false, false, false⟩ rv =
      .error .noClassSelected := by
  simp [generateSecurePassword, charPoolOf]

/-- C5 counterexample: at the requested length 0 with digits selected the
generator does not fail at all — it returns the empty string, so no
`InvalidLength` failure for `length ≤ 0` exists in the code. -/
theorem generateSecurePassword_zeroLength_ok :
    generateSecurePassword ⟨0, false, false, true, false⟩ (fun _ => 0) = .ok "" := rfl

/-- C5 amended: with a non-empty class selection, a strictly negative
length fails (the `Uint8Array` allocation raises `RangeError`); length 0
succeeds with the empty string (shown by the counterexample above). -/
theorem generateSecurePassword_negLength (o : GenOptions) (rv : Nat → Nat)
    (hclass : o.useUppercase = true ∨ o.useLowercase = true ∨
      o.useDigits = true ∨ o.useSymbols = true)
    (hneg : o.length < 0) :
    generateSecurePassword o rv = .error .rangeError := by
  have hpool := charPoolOf_length_ne_zero o hclass
  simp [generateSecurePassword, hpool, hneg]

/-- Witness for the amended C5 at length `-1` with digits selected. -/
theorem generateSecurePassword_negLength_witness :
    generateSecurePassword ⟨-1, false, false, true, false⟩ (fun _ => 0) =
      .error .rangeError :=
  generateSecurePassword_negLength _ _ (Or.inr (Or.inr (Or.inl rfl))) (by decide)

/-- C6: if the website, the username or the password field is empty, the
add handler stops with the validation failure and the database is left
unchanged (nothing encrypted, nothing inserted). -/
theorem handleAddPasswordSubmit_validation (A : AEAD) (key iv : List Nat)
    (w u p : String) (db : DB) (h : w = "" ∨ u = "" ∨ p = "") :
    handleAddPasswordSubmit A key iv w u p db = (.validationFailed, db) := by
  have htrim : jsTrim "" = "" := rfl
  rcases h with h | h | h <;> subst h <;>
    simp [handleAddPasswordSubmit, htrim]

/-- Witness for C6: an empty website field at a concrete database. -/
theorem handleAddPasswordSubmit_validation_witness :
    handleAddPasswordSubmit xorAEAD [1] [2] "" "alice" "pw" openDatabase =
      (.validationFailed, openDatabase) :=
  handleAddPasswordSubmit_validation xorAEAD [1] [2] "" "alice" "pw" openDatabase
    (Or.inl rfl)

/-- C9: website and username are trimmed before validation but the password
is not: any non-empty password — in particular a whitespace-only one
(`jsTrim p = ""`, `p ≠ ""`) — passes validation and is encrypted and stored
verbatim (the ciphertext encrypts the untrimmed `p`), while website and
username are stored trimmed. -/
theorem handleAddPasswordSubmit_password_untrimmed (A : AEAD) (key iv : List Nat)
    (w u p : String) (db : DB)
    (hw : jsTrim w ≠ "") (hu : jsTrim u ≠ "") (_hpws : jsTrim p = "") (hp : p ≠ "") :
    handleAddPasswordSubmit A key iv w u p db =
      (.saved, saveEncryptedPasswordToDB (jsTrim w) (jsTrim u) iv
        (A.enc key iv (utf8Encode p)) db) := by
  simp [handleAddPasswordSubmit, hw, hu, hp, encryptPassword]

/-- Witness for C9: the single-space password passes validation and is
stored encrypted verbatim. -/
theorem handleAddPasswordSubmit_password_untrimmed_witness :
    handleAddPasswordSubmit xorAEAD [1] [2] "site" " bob " " " openDatabase =
      (.saved, saveEncryptedPasswordToDB (jsTrim "site") (jsTrim " bob ") [2]
        (xorAEAD.enc [1] [2] (utf8Encode " ")) openDatabase) :=
  handleAddPasswordSubmit_password_untrimmed xorAEAD [1] [2] "site" " bob " " "
    openDatabase (by decide) (by decide) (by decide) (by decide)

/-- C10 counterexample: a key record holding an empty buffer is truthy in
JS, so the lookup returns the empty buffer (not `null`) and `initApp`
keeps it without generating or writing anything. -/
theorem getMasterKeyFromDB_emptyBuffer :
    getMasterKeyFromDB { keyRecord := some { rawKey := JSVal.buf [] }, passwords := [], nextId := 1 } = some [] ∧
    initApp [9, 9] { keyRecord := some { rawKey := JSVal.buf [] }, passwords := [], nextId := 1 } =
      ([], { keyRecord := some { rawKey := JSVal.buf [] }, passwords := [], nextId := 1 }) :=
  ⟨rfl, rfl⟩

/-- C10 amended: when the stored key record's `rawKey` is falsy — which for
the values this code can hold means nullish, since any buffer, even empty,
is truthy — the lookup reports the key absent and `initApp` generates a
fresh key and overwrites the record. -/
theorem nullish_rawKey_regenerated (db : DB) (r : KeyRecord) (g : List Nat)
    (hrec : db.keyRecord = some r) (hraw : r.rawKey.truthy = false) :
    getMasterKeyFromDB db = none ∧ initApp g db = (g, saveMasterKeyToDB g db) := by
  have hr : r.rawKey = JSVal.nullish := by
    cases hv : r.rawKey with
    | nullish => rfl
    | buf b => rw [hv] at hraw; simp [JSVal.truthy] at hraw
  have h : getMasterKeyFromDB db = none := by
    simp [getMasterKeyFromDB, hrec, hr]
  exact ⟨h, by simp [initApp, h]⟩

/-- Witness for the amended C10 at a concrete record with nullish `rawKey`. -/
theorem nullish_rawKey_regenerated_witness :
    getMasterKeyFromDB { keyRecord := some { rawKey := JSVal.nullish }, passwords := [], nextId := 1 } = none ∧
    initApp [1, 2] { keyRecord := some { rawKey := JSVal.nullish }, passwords := [], nextId := 1 } =
      ([1, 2], saveMasterKeyToDB [1, 2] { keyRecord := some { rawKey := JSVal.nullish }, passwords := [], nextId := 1 }) :=
  nullish_rawKey_regenerated _ _ [1, 2] rfl rfl

/-! ## XOR and witness-scheme lemmas -/

/-- XORing a non-zero value changes a number. -/
theorem xor_ne_of_ne_zero (a c : Nat) (h : c ≠ 0) : a ^^^ c ≠ a := by
  intro heq
  have h2 : a ^^^ (a ^^^ c) = a ^^^ a := by rw [heq]
  rw [Nat.xor_cancel_left, Nat.xor_self] at h2
  exact h h2

/-- Unfolding of `xorSum` on a cons cell. -/
theorem xorSum_cons (a : Nat) (l : List Nat) : xorSum (a :: l) = a ^^^ xorSum l := rfl

/-- XORing a constant into one in-range element XORs it into the fold. -/
theorem xorSum_set (l : List Nat) (i : Nat) (c : Nat) (hi : i < l.length) :
    xorSum (l.set i (l.getD i 0 ^^^ c)) = xorSum l ^^^ c := by
  induction l generalizing i with
  | nil => simp at hi
  | cons a t ih =>
    cases i with
    | zero =>
      simp only [List.set_cons_zero, List.getD_cons_zero, xorSum_cons]
      rw [Nat.xor_assoc, Nat.xor_comm c (xorSum t), ← Nat.xor_assoc]
    | succ i =>
      simp only [List.set_cons_succ, List.getD_cons_succ, xorSum_cons]
      rw [ih i (by simpa using hi), ← Nat.xor_assoc]

/-- Powers of two are non-zero. -/
theorem two_pow_ne_zero (j : Nat) : (2 : Nat) ^ j ≠ 0 :=
  Nat.pos_iff_ne_zero.mp (Nat.pos_pow_of_pos j (by omega))

/-- Evaluation of `xorAEAD.dec` on a body-plus-tag ciphertext. -/
theorem xorAEAD_dec_concat (key iv m : List Nat) (t : Nat) :
    xorAEAD.dec key iv (m ++ [t]) = if t = tagOf key iv m then some m else none := by
  simp [xorAEAD, List.getLastD_concat, List.dropLast_concat]

/-- The witness scheme satisfies the AEAD round-trip contract. -/
theorem xorAEAD_correct : xorAEAD.Correct := by
  intro key iv msg
  show xorAEAD.dec key iv (msg ++ [tagOf key iv msg]) = some msg
  rw [xorAEAD_dec_concat, if_pos rfl]

/-- The witness scheme satisfies the ciphertext tamper-detection contract. -/
theorem xorAEAD_tamperCt : xorAEAD.TamperCt := by
  intro key iv msg i j _hj hi
  rcases Nat.lt_or_ge i msg.length with hlt | hge
  · have hset : flipBit (xorAEAD.enc key iv msg) i j =
        msg.set i (msg.getD i 0 ^^^ 2 ^ j) ++ [tagOf key iv msg] := by
      simp only [flipBit, xorAEAD, List.set_append, if_pos hlt,
        List.getD_append msg [tagOf key iv msg] 0 i hlt]
    have hne : tagOf key iv msg ≠ tagOf key iv (msg.set i (msg.getD i 0 ^^^ 2 ^ j)) := by
      unfold tagOf
      rw [xorSum_set msg i (2 ^ j) hlt, ← Nat.xor_assoc]
      exact fun h => xor_ne_of_ne_zero _ _ (two_pow_ne_zero j) h.symm
    show xorAEAD.dec key iv (flipBit (xorAEAD.enc key iv msg) i j) = none
    rw [hset, xorAEAD_dec_concat, if_neg hne]
  · have hieq : i = msg.length := by
      have hl : (xorAEAD.enc key iv msg).length = msg.length + 1 := by simp [xorAEAD]
      omega
    subst hieq
    have hset : flipBit (xorAEAD.enc key iv msg) msg.length j =
        msg ++ [tagOf key iv msg ^^^ 2 ^ j] := by
      simp only [flipBit, xorAEAD, List.set_append, if_neg (lt_irrefl msg.length),
        List.getD_append_right msg [tagOf key iv msg] 0 msg.length le_rfl]
      simp
    have hne : tagOf key iv msg ^^^ 2 ^ j ≠ tagOf key iv msg :=
      xor_ne_of_ne_zero _ _ (two_pow_ne_zero j)
    show xorAEAD.dec key iv (flipBit (xorAEAD.enc key iv msg) msg.length j) = none
    rw [hset, xorAEAD_dec_concat, if_neg hne]

/-- The witness scheme satisfies the nonce tamper-detection contract. -/
theorem xorAEAD_tamperIv : xorAEAD.TamperIv := by
  intro key iv msg i j _hj hi
  have h2 : xorSum key ^^^ (xorSum iv ^^^ 2 ^ j) ^^^ xorSum msg
      = tagOf key iv msg ^^^ 2 ^ j := by
    unfold tagOf
    rw [← Nat.xor_assoc (xorSum key) (xorSum iv) (2 ^ j),
      Nat.xor_assoc (xorSum key ^^^ xorSum iv) (2 ^ j) (xorSum msg),
      Nat.xor_comm (2 ^ j) (xorSum msg),
      ← Nat.xor_assoc]
  have hne : tagOf key iv msg ≠ tagOf key (flipBit iv i j) msg := by
    unfold flipBit
    unfold tagOf
    rw [xorSum_set iv i (2 ^ j) hi]
    rw [show xorSum key ^^^ (xorSum iv ^^^ 2 ^ j) ^^^ xorSum msg
      = tagOf key iv msg ^^^ 2 ^ j from h2]
    exact fun h => xor_ne_of_ne_zero _ _ (two_pow_ne_zero j) h.symm
  show xorAEAD.dec key (flipBit iv i j) (msg ++ [tagOf key iv msg]) = none
  rw [xorAEAD_dec_concat, if_neg hne]

/-! ## UTF-8 round-trip lemmas -/

/-- Every `Char` code point is below `0x110000`. -/
theorem char_toNat_lt (c : Char) : c.toNat < 0x110000 := by
  rcases c.valid with h | h
  · have h2 : c.val.toNat < 0xd800 := h
    simp only [Char.toNat]
    omega
  · exact h.2

/-- Decoding one character from the front of its own encoding recovers it
and leaves the rest untouched. -/
theorem utf8DecodeOne_encodeChar (c : Char) (rest : List Nat) :
    utf8DecodeOne (utf8EncodeChar c ++ rest) = some (c, rest) := by
  have hval : c.toNat < 0x110000 := char_toNat_lt c
  have hofn : Char.ofNat c.toNat = c := Char.ofNat_toNat c
  by_cases h1 : c.toNat < 0x80
  · simp only [utf8EncodeChar, if_pos h1, List.cons_append, List.nil_append]
    simp only [utf8DecodeOne]
    rw [if_pos h1, hofn]
  · by_cases h2 : c.toNat < 0x800
    · simp only [utf8EncodeChar, if_neg h1, if_pos h2, List.cons_append, List.nil_append]
      simp only [utf8DecodeOne]
      rw [if_neg (by omega), if_neg (by omega), if_pos (by omega)]
      have hc : contByte (0x80 + c.toNat % 0x40) = true := by
        simp only [contByte, Bool.and_eq_true, decide_eq_true_eq]
        omega
      simp only [hc, if_pos]
      have harg : (0xC0 + c.toNat / 0x40 - 0xC0) * 0x40 + (0x80 + c.toNat % 0x40 - 0x80)
          = c.toNat := by omega
      rw [harg, hofn]
    · by_cases h3 : c.toNat < 0x10000
      · simp only [utf8EncodeChar, if_neg h1, if_neg h2, if_pos h3, List.cons_append,
          List.nil_append]
        simp only [utf8DecodeOne]
        rw [if_neg (by omega), if_neg (by omega), if_neg (by omega), if_pos (by omega)]
        have hc : (contByte (0x80 + c.toNat / 0x40 % 0x40) && contByte (0x80 + c.toNat % 0x40))
            = true := by
          simp only [contByte, Bool.and_eq_true, decide_eq_true_eq]
          omega
        simp only [hc, if_pos]
        have harg : (0xE0 + c.toNat / 0x1000 - 0xE0) * 0x1000 +
            (0x80 + c.toNat / 0x40 % 0x40 - 0x80) * 0x40 + (0x80 + c.toNat % 0x40 - 0x80)
            = c.toNat := by omega
        rw [harg]
        rw [if_neg (by omega), hofn]
      · simp only [utf8EncodeChar, if_neg h1, if_neg h2, if_neg h3, List.cons_append,
          List.nil_append]
        simp only [utf8DecodeOne]
        rw [if_neg (by omega), if_neg (by omega), if_neg (by omega), if_neg (by omega),
          if_pos (by omega)]
        have hc : (contByte (0x80 + c.toNat / 0x1000 % 0x40) &&
            contByte (0x80 + c.toNat / 0x40 % 0x40) && contByte (0x80 + c.toNat % 0x40))
            = true := by
          simp only [contByte, Bool.and_eq_true, decide_eq_true_eq]
          omega
        simp only [hc, if_pos]
        have harg : (0xF0 + c.toNat / 0x40000 - 0xF0) * 0x40000 +
            (0x80 + c.toNat / 0x1000 % 0x40 - 0x80) * 0x1000 +
            (0x80 + c.toNat / 0x40 % 0x40 - 0x80) * 0x40 + (0x80 + c.toNat % 0x40 - 0x80)
            = c.toNat := by omega
        rw [harg]
        rw [if_neg (by omega), hofn]

/-- A character encodes to at least one byte. -/
theorem utf8EncodeChar_length_pos (c : Char) : 0 < (utf8EncodeChar c).length := by
  by_cases h1 : c.toNat < 0x80
  · simp [utf8EncodeChar, h1]
  · by_cases h2 : c.toNat < 0x800
    · simp [utf8EncodeChar, h1, h2]
    · by_cases h3 : c.toNat < 0x10000
      · simp [utf8EncodeChar, h1, h2, h3]
      · simp [utf8EncodeChar, h1, h2, h3]

/-- With enough fuel, the decode loop inverts the encoding of a character
list. -/
theorem utf8DecodeLoop_flatMap (cs : List Char) (f : Nat)
    (hf : (cs.flatMap utf8EncodeChar).length ≤ f) :
    utf8DecodeLoop f (cs.flatMap utf8EncodeChar) = some cs := by
  induction cs generalizing f with
  | nil => cases f <;> rfl
  | cons c cs ih =>
    have hbytes : (c :: cs).flatMap utf8EncodeChar =
        utf8EncodeChar c ++ cs.flatMap utf8EncodeChar := by
      simp [List.flatMap_cons]
    rw [hbytes] at hf ⊢
    have hcpos := utf8EncodeChar_length_pos c
    have hlen : (utf8EncodeChar c ++ cs.flatMap utf8EncodeChar).length =
        (utf8EncodeChar c).length + (cs.flatMap utf8EncodeChar).length := by
      simp
    obtain ⟨b, tail, htail⟩ : ∃ b tail, utf8EncodeChar c = b :: tail := by
      cases henc : utf8EncodeChar c with
      | nil => rw [henc] at hcpos; simp at hcpos
      | cons b tail => exact ⟨b, tail, rfl⟩
    obtain ⟨f1, hf1⟩ : ∃ f1, f = f1 + 1 := by
      refine ⟨f - 1, ?_⟩
      omega
    subst hf1
    rw [htail, List.cons_append, utf8DecodeLoop]
    rw [← List.cons_append, ← htail, utf8DecodeOne_encodeChar]
    have hihf := ih f1 (by omega)
    simp [hihf]

/-- UTF-8 decoding inverts UTF-8 encoding of a character list. -/
theorem utf8Decode_flatMap (cs : List Char) :
    utf8Decode (cs.flatMap utf8EncodeChar) = some cs :=
  utf8DecodeLoop_flatMap cs _ le_rfl

/-- `TextDecoder` inverts `TextEncoder` on every string. -/
theorem textDecoder_utf8Encode (s : String) : textDecoder (utf8Encode s) = some s := by
  unfold textDecoder utf8Encode
  rw [utf8Decode_flatMap]
  rfl

/-- C1: encrypting a plaintext with the master key and then decrypting the
resulting iv/ciphertext pair with the same master key returns the original
plaintext (the round trip goes through the UTF-8 encoding), for every AEAD
primitive satisfying the round-trip contract of §4.3. -/
theorem encryptPassword_decryptPassword_roundtrip (A : AEAD) (hA : A.Correct)
    (rawMasterKey iv : List Nat) (P : String) :
    decryptPassword A rawMasterKey (encryptPassword A rawMasterKey iv P) = some P := by
  unfold decryptPassword encryptPassword
  rw [hA rawMasterKey iv (utf8Encode P)]
  simp [textDecoder_utf8Encode]

/-- Witness for C1 at the concrete witness scheme, key, IV and plaintext. -/
theorem encryptPassword_decryptPassword_roundtrip_witness :
    decryptPassword xorAEAD [1, 2, 3]
      (encryptPassword xorAEAD [1, 2, 3] [7, 7, 7] "pw") = some "pw" :=
  encryptPassword_decryptPassword_roundtrip xorAEAD xorAEAD_correct [1, 2, 3] [7, 7, 7] "pw"

/-- C7: flipping any single bit of the stored ciphertext — at every byte
position of the ciphertext, including the authentication tag — or any
single bit of the nonce, at every byte position of the nonce, makes
decryption fail with `none` — never corrupted or partial plaintext — for
every AEAD primitive satisfying the tamper-detection contracts of §4.3/§8.
The two halves are quantified independently, so neither bound restricts
the other. -/
theorem decryptPassword_tamper (A : AEAD) (hct : A.TamperCt) (hiv : A.TamperIv)
    (key iv : List Nat) (P : String) :
    (∀ i j, j < 8 → i < (encryptPassword A key iv P).ciphertext.length →
      decryptPassword A key
        { iv := iv, ciphertext := flipBit (encryptPassword A key iv P).ciphertext i j }
        = none) ∧
    (∀ i j, j < 8 → i < iv.length →
      decryptPassword A key
        { iv := flipBit iv i j, ciphertext := (encryptPassword A key iv P).ciphertext }
        = none) := by
  constructor
  · intro i j hj hi
    unfold decryptPassword
    simp only [encryptPassword] at hi ⊢
    rw [hct key iv (utf8Encode P) i j hj hi]
    rfl
  · intro i j hj hi
    unfold decryptPassword
    simp only [encryptPassword] at hi ⊢
    rw [hiv key iv (utf8Encode P) i j hj hi]
    rfl

/-- Witness for C7 at the concrete witness scheme, key, IV and plaintext:
every bit of the ciphertext (both its bytes, body and tag) and every bit
of the nonce is covered. -/
theorem decryptPassword_tamper_witness :
    (∀ i j, j < 8 → i < (encryptPassword xorAEAD [1] [2] "a").ciphertext.length →
      decryptPassword xorAEAD [1]
        { iv := [2], ciphertext := flipBit (encryptPassword xorAEAD [1] [2] "a").ciphertext i j }
        = none) ∧
    (∀ i j, j < 8 → i < ([2] : List Nat).length →
      decryptPassword xorAEAD [1]
        { iv := flipBit [2] i j, ciphertext := (encryptPassword xorAEAD [1] [2] "a").ciphertext }
        = none) :=
  decryptPassword_tamper xorAEAD xorAEAD_tamperCt xorAEAD_tamperIv [1] [2] "a"

/-! ## Generator and storage-order theorems -/

/-- C3: for a positive length and a non-empty class selection the generator
returns exactly `length` characters, and the character at position `i` is
`charPool[randomByte_i % charPool.length]`, where the pool is the
concatenation of the selected alphabets in the fixed class order. -/
theorem generateSecurePassword_spec (o : GenOptions) (rv : Nat → Nat)
    (hlen : 0 < o.length)
    (hclass : o.useUppercase = true ∨ o.useLowercase = true ∨
      o.useDigits = true ∨ o.useSymbols = true)
    (hrv : ∀ i, rv i < 256) :
    ∃ s : String, generateSecurePassword o rv = .ok s ∧
      (s.length : Int) = o.length ∧
      ∀ i : Nat, i < o.length.toNat →
        s.data[i]? = (charPoolOf o)[rv i % (charPoolOf o).length]? := by
  have hpool := charPoolOf_length_ne_zero o hclass
  have hpos : 0 < (charPoolOf o).length := Nat.pos_of_ne_zero hpool
  refine ⟨String.mk ((List.range o.length.toNat).map
      (fun i => (charPoolOf o).getD (rv i % 256 % (charPoolOf o).length) ' ')), ?_, ?_, ?_⟩
  · unfold generateSecurePassword
    rw [if_neg hpool, if_neg (by omega)]
  · show (((List.range o.length.toNat).map
      (fun i => (charPoolOf o).getD (rv i % 256 % (charPoolOf o).length) ' ')).length : Int)
      = o.length
    rw [List.length_map, List.length_range]
    omega
  · intro i hi
    show ((List.range o.length.toNat).map
      (fun i => (charPoolOf o).getD (rv i % 256 % (charPoolOf o).length) ' '))[i]? =
      (charPoolOf o)[rv i % (charPoolOf o).length]?
    rw [List.getElem?_map, List.getElem?_range hi]
    have hmod : rv i % 256 = rv i := Nat.mod_eq_of_lt (hrv i)
    have hidx : rv i % (charPoolOf o).length < (charPoolOf o).length := Nat.mod_lt _ hpos
    rw [show Option.map (fun i => (charPoolOf o).getD (rv i % 256 % (charPoolOf o).length) ' ')
      (some i) = some ((charPoolOf o).getD (rv i % 256 % (charPoolOf o).length) ' ') from rfl]
    rw [hmod, List.getD_eq_getElem (charPoolOf o) ' ' hidx, List.getElem?_eq_getElem hidx]

/-- Witness for C3: length 16, digits only, the constant random byte 7. -/
theorem generateSecurePassword_spec_witness :
    ∃ s : String,
      generateSecurePassword ⟨16, false, false, true, false⟩ (fun _ => 7) = .ok s ∧
      (s.length : Int) = (GenOptions.mk 16 false false true false).length ∧
      ∀ i : Nat, i < (GenOptions.mk 16 false false true false).length.toNat →
        s.data[i]? = (charPoolOf ⟨16, false, false, true, false⟩)[(fun _ => 7) i %
          (charPoolOf ⟨16, false, false, true, false⟩).length]? :=
  generateSecurePassword_spec ⟨16, false, false, true, false⟩ (fun _ => 7) (by decide)
    (Or.inr (Or.inr (Or.inl rfl))) (fun _ => (by decide : (7 : Nat) < 256))

/-- Scanning all ids in ascending order returns a list with sorted, bounded
ids unchanged. -/
theorem scan_eq_self (l : List PasswordRecord) (n : Nat)
    (hord : l.Pairwise (fun a b => a.id < b.id))
    (hbnd : ∀ r ∈ l, r.id < n) :
    (List.range n).filterMap (fun i => l.find? (fun r => r.id == i)) = l := by
  induction n generalizing l with
  | zero =>
    cases l with
    | nil => simp
    | cons a t => exact absurd (hbnd a (by simp)) (by omega)
  | succ n ih =>
    rcases List.eq_nil_or_concat l with hnil | ⟨l1, r, hcat⟩
    · subst hnil
      simp
    · subst hcat
      rw [List.range_succ, List.filterMap_append]
      have hord1 : l1.Pairwise (fun a b => a.id < b.id) := by
        rw [List.concat_eq_append, List.pairwise_append] at hord
        exact hord.1
      have hlt : ∀ a ∈ l1, a.id < r.id := by
        rw [List.concat_eq_append, List.pairwise_append] at hord
        intro a ha
        exact hord.2.2 a ha r (by simp)
      have hrn : r.id < n + 1 := hbnd r (by simp)
      rcases Nat.lt_or_ge r.id n with hrlt | hrge
      · have hbnd2 : ∀ x ∈ l1.concat r, x.id < n := by
          intro x hx
          rw [List.concat_eq_append, List.mem_append] at hx
          rcases hx with hx | hx
          · exact Nat.lt_trans (hlt x hx) hrlt
          · simp at hx
            rw [hx]
            exact hrlt
        have hfind : (l1.concat r).find? (fun x => x.id == n) = none := by
          rw [List.find?_eq_none]
          intro x hx
          simp only [beq_iff_eq]
          exact Nat.ne_of_lt (hbnd2 x hx)
        rw [ih (l1.concat r) hord hbnd2]
        have hemp : List.filterMap (fun i => (l1.concat r).find? (fun x => x.id == i)) [n]
            = [] := by
          simp only [List.filterMap_cons, List.filterMap_nil, hfind]
        rw [hemp, List.append_nil]
      · have hreq : r.id = n := by omega
        have hf1 : ∀ i ∈ List.range n,
            (l1.concat r).find? (fun x => x.id == i) = l1.find? (fun x => x.id == i) := by
          intro i hi
          rw [List.mem_range] at hi
          rw [List.concat_eq_append, List.find?_append]
          have hfr : [r].find? (fun x => x.id == i) = none := by
            rw [List.find?_eq_none]
            intro x hx
            simp only [List.mem_singleton] at hx
            rw [hx]
            simp only [beq_iff_eq]
            omega
          rw [hfr, Option.or_none]
        have hbnd1 : ∀ x ∈ l1, x.id < n := fun x hx => by
          have hxr := hlt x hx
          omega
        rw [List.filterMap_congr hf1, ih l1 hord1 hbnd1]
        have hfindn : (l1.concat r).find? (fun x => x.id == n) = some r := by
          rw [List.concat_eq_append, List.find?_append]
          have h1 : l1.find? (fun x => x.id == n) = none := by
            rw [List.find?_eq_none]
            intro x hx
            simp only [beq_iff_eq]
            exact Nat.ne_of_lt (hbnd1 x hx)
          have h2 : [r].find? (fun x => x.id == n) = some r := by
            simp [List.find?_cons, hreq]
          rw [h1, h2]
          rfl
        have hone : List.filterMap (fun i => (l1.concat r).find? (fun x => x.id == i)) [n]
            = [r] := by
          simp only [List.filterMap_cons, List.filterMap_nil, hfindn]
        rw [hone, List.concat_eq_append]

/-- Along reachable database states the password ids are strictly
increasing in insertion order and bounded by the auto-increment counter. -/
theorem reachable_invariant (db : DB) (h : Reachable db) :
    db.passwords.Pairwise (fun a b => a.id < b.id) ∧
      ∀ r ∈ db.passwords, r.id < db.nextId := by
  induction h with
  | start => simp [openDatabase]
  | add w u iv ct hdb ih =>
    obtain ⟨ho, hb⟩ := ih
    refine ⟨?_, ?_⟩
    · simp only [saveEncryptedPasswordToDB]
      rw [List.pairwise_append]
      refine ⟨ho, List.pairwise_singleton _ _, ?_⟩
      intro a ha b hbm
      simp only [List.mem_singleton] at hbm
      rw [hbm]
      exact hb a ha
    · simp only [saveEncryptedPasswordToDB]
      intro x hx
      rw [List.mem_append] at hx
      rcases hx with hx | hx
      · exact Nat.lt_trans (hb x hx) (Nat.lt_succ_self _)
      · simp only [List.mem_singleton] at hx
        rw [hx]
        exact Nat.lt_succ_self _
  | del id hdb ih =>
    obtain ⟨ho, hb⟩ := ih
    refine ⟨List.Pairwise.filter _ ho, ?_⟩
    intro x hx
    simp only [deletePasswordById] at hx
    exact hb x (List.mem_of_mem_filter hx)
  | key k hdb ih =>
    exact ih

/-- C8: for every database state reachable through the repository's own
storage operations, `getAllPasswords` (key-ordered retrieval) returns
exactly the stored records in insertion order. -/
theorem getAllPasswords_insertion_order (db : DB) (h : Reachable db) :
    getAllPasswords db = db.passwords := by
  obtain ⟨ho, hb⟩ := reachable_invariant db h
  exact scan_eq_self db.passwords db.nextId ho hb

/-- Witness for C8: a database reached by two inserts, retrieved in
insertion order. -/
theorem getAllPasswords_insertion_order_witness :
    getAllPasswords (saveEncryptedPasswordToDB "b.com" "bob" [1] [2]
      (saveEncryptedPasswordToDB "a.com" "al" [3] [4] openDatabase)) =
    (saveEncryptedPasswordToDB "b.com" "bob" [1] [2]
      (saveEncryptedPasswordToDB "a.com" "al" [3] [4] openDatabase)).passwords :=
  getAllPasswords_insertion_order _
    (Reachable.add "b.com" "bob" [1] [2] (Reachable.add "a.com" "al" [3] [4] Reachable.start))
